import Mathlib

/-!
Verification of a character-level RNN walkthrough notebook.

Python strings are modelled as `List Char`; fallible Python operations
(dictionary lookups that may raise `KeyError`, numpy indexing that may raise
`IndexError`) are modelled with `Option`, where `none` stands for the raised
exception.  The floating-point recurrent network itself is abstracted as an
opaque-to-the-proofs function argument `net` producing the argmax class index
(a `Fin dict_size`), since the claims under study only concern the discrete
control flow around it.
-/

namespace RnnWalkthrough

/-- Lookup of a character in a list, returning its first index.  This models
the dictionary built by `char2int = {char: ind for ind, char in int2char.items()}`:
on the duplicate-free list coming from `set(...)`, the first index is the
unique index. -/
def lookupIdx (c : Char) : List Char → Option Nat
  | [] => none
  | d :: l => if d = c then some 0 else (lookupIdx c l).map (· + 1)

/-- `chars = set("".join(text))`: the distinct characters of the joined corpus.
Python's set iteration order is unspecified; any duplicate-free enumeration of
the joined corpus models it, here `List.dedup`. -/
def chars (text : List (List Char)) : List Char :=
  text.flatten.dedup

/-- `int2char = dict(enumerate(chars))`: index-to-character map; lookup of a
missing key raises, modelled by `none`. -/
def int2char (text : List (List Char)) (i : Nat) : Option Char :=
  (chars text)[i]?

/-- `char2int = {char: ind for ind, char in int2char.items()}`:
character-to-index map; lookup of a missing key raises, modelled by `none`. -/
def char2int (text : List (List Char)) (c : Char) : Option Nat :=
  lookupIdx c (chars text)

theorem lookupIdx_eq_some (c : Char) (l : List Char) (i : Nat)
    (h : lookupIdx c l = some i) : l[i]? = some c := by
  induction l generalizing i with
  | nil => simp [lookupIdx] at h
  | cons d t ih =>
    by_cases hdc : d = c
    · simp [lookupIdx, hdc] at h
      subst h; simp [hdc]
    · simp [lookupIdx, hdc] at h
      obtain ⟨j, hj, rfl⟩ := h
      simpa using ih j hj

theorem lookupIdx_of_getElem? (c : Char) (l : List Char) (i : Nat)
    (hnd : l.Nodup) (h : l[i]? = some c) : lookupIdx c l = some i := by
  induction l generalizing i with
  | nil => simp at h
  | cons d t ih =>
    rcases List.nodup_cons.mp hnd with ⟨hdt, hndt⟩
    cases i with
    | zero =>
      simp at h
      simp [lookupIdx, h]
    | succ j =>
      simp at h
      have hdc : d ≠ c := by
        intro hdc
        exact hdt (hdc ▸ List.getElem?_mem h)
      simp [lookupIdx, hdc, ih j hndt h]

theorem lookupIdx_isSome_of_mem (c : Char) (l : List Char) (h : c ∈ l) :
    (lookupIdx c l).isSome := by
  induction l with
  | nil => simp at h
  | cons d t ih =>
    by_cases hdc : d = c
    · simp [lookupIdx, hdc]
    · simp [lookupIdx, hdc]
      rcases List.mem_cons.mp h with h0 | h1
      · exact absurd h0.symm hdc
      · exact ih h1

theorem lookupIdx_lt_length (c : Char) (l : List Char) (i : Nat)
    (h : lookupIdx c l = some i) : i < l.length := by
  have := lookupIdx_eq_some c l i h
  exact (List.getElem?_eq_some.mp this).1

/-- Numpy-style assignment `features[i, u, k] = 1` restricted to the last
axis, acting on one slice `row`: a nonnegative index `k < len` writes at
position `k`; a negative index `-len ≤ k < 0` wraps around and writes at
position `len + k` (numpy basic indexing); any other index raises
`IndexError`, modelled by `none`. -/
def npSetIndex (row : List Nat) (k : Int) : Option (List Nat) :=
  if 0 ≤ k ∧ k < (row.length : Int) then some (row.set k.toNat 1)
  else if -(row.length : Int) ≤ k ∧ k < 0 then
    some (row.set ((row.length : Int) + k).toNat 1)
  else none

/-- `one_hot_encode(sequence, dict_size, seq_len, batch_size)`: starts from a
zero array of shape `(batch_size, seq_len, dict_size)` and runs
`for i in range(batch_size): for u in range(seq_len):
features[i, u, sequence[i][u]] = 1`.  Each `(i, u)` slice is written exactly
once and an exception aborts the whole call discarding `features`, so the
loop is rendered by building every slice independently; `sequence[i]` /
`sequence[i][u]` out-of-range accesses and the numpy assignment error are all
`none`. -/
def one_hot_encode (sequence : List (List Int))
    (dict_size seq_len batch_size : Nat) : Option (List (List (List Nat))) :=
  (List.range batch_size).mapM fun i =>
    (List.range seq_len).mapM fun u =>
      (sequence[i]?).bind fun row =>
        (row[u]?).bind fun k =>
          npSetIndex (List.replicate dict_size 0) k

theorem mapM_option_isSome {α β : Type} (f : α → Option β) (l : List α) :
    (l.mapM f).isSome ↔ ∀ a ∈ l, (f a).isSome := by
  rw [← List.mapM'_eq_mapM]
  induction l with
  | nil => simp [List.mapM']
  | cons a t ih =>
    cases hfa : f a with
    | none => simp [List.mapM', hfa]
    | some b =>
      cases hm : t.mapM' f with
      | none =>
        simp [List.mapM', hfa, hm]
        have hns : ¬ ((t.mapM' f).isSome = true) := by rw [hm]; simp
        rw [ih] at hns
        push_neg at hns
        obtain ⟨x, hx, hfx⟩ := hns
        exact ⟨x, hx, Option.not_isSome_iff_eq_none.mp hfx⟩
      | some ys =>
        simp [List.mapM', hfa, hm]
        intro x hx
        have hs : (t.mapM' f).isSome = true := by rw [hm]; rfl
        exact ih.mp hs x hx

theorem mapM_option_eq_none {α β : Type} (f : α → Option β) (l : List α)
    (a : α) (ha : a ∈ l) (hfa : f a = none) : l.mapM f = none := by
  cases hm : l.mapM f with
  | none => rfl
  | some ys =>
    have h1 : (l.mapM f).isSome := by rw [hm]; rfl
    have h2 := (mapM_option_isSome f l).mp h1 a ha
    simp [hfa] at h2

theorem mapM_option_length {α β : Type} (f : α → Option β) (l : List α)
    (ys : List β) (h : l.mapM f = some ys) : ys.length = l.length := by
  rw [← List.mapM'_eq_mapM] at h
  induction l generalizing ys with
  | nil =>
    simp [List.mapM'] at h
    simp [← h]
  | cons a t ih =>
    cases hfa : f a with
    | none => simp [List.mapM', hfa] at h
    | some b =>
      cases hm : t.mapM' f with
      | none => simp [List.mapM', hfa, hm] at h
      | some zs =>
        simp [List.mapM', hfa, hm] at h
        simp [← h, ih zs hm]

theorem mapM_option_mem {α β : Type} (f : α → Option β) (l : List α)
    (ys : List β) (h : l.mapM f = some ys) (b : β) (hb : b ∈ ys) :
    ∃ a ∈ l, f a = some b := by
  rw [← List.mapM'_eq_mapM] at h
  induction l generalizing ys with
  | nil =>
    simp [List.mapM'] at h
    subst h; simp at hb
  | cons a t ih =>
    cases hfa : f a with
    | none => simp [List.mapM', hfa] at h
    | some c =>
      cases hm : t.mapM' f with
      | none => simp [List.mapM', hfa, hm] at h
      | some zs =>
        simp [List.mapM', hfa, hm] at h
        subst h
        rcases List.mem_cons.mp hb with rfl | hmem
        · exact ⟨a, List.mem_cons_self a t, hfa⟩
        · obtain ⟨x, hx, hfx⟩ := ih zs hm hmem
          exact ⟨x, List.mem_cons_of_mem a hx, hfx⟩

theorem npSetIndex_of_nonneg (row : List Nat) (k : Int) (h0 : 0 ≤ k)
    (h1 : k < (row.length : Int)) :
    npSetIndex row k = some (row.set k.toNat 1) := by
  simp [npSetIndex, h0, h1]

theorem npSetIndex_eq_none (row : List Nat) (k : Int)
    (h : k < -(row.length : Int) ∨ (row.length : Int) ≤ k) :
    npSetIndex row k = none := by
  have h1 : ¬ (0 ≤ k ∧ k < (row.length : Int)) := by omega
  have h2 : ¬ (-(row.length : Int) ≤ k ∧ k < 0) := by omega
  unfold npSetIndex
  rw [if_neg h1, if_neg h2]

theorem npSetIndex_isSome (row : List Nat) (k : Int)
    (hlo : -(row.length : Int) ≤ k) (hhi : k < (row.length : Int)) :
    (npSetIndex row k).isSome := by
  unfold npSetIndex
  by_cases h1 : 0 ≤ k ∧ k < (row.length : Int)
  · rw [if_pos h1]; rfl
  · have h2 : -(row.length : Int) ≤ k ∧ k < 0 := by omega
    rw [if_neg h1, if_pos h2]; rfl

/-- A slice written by `npSetIndex` at an in-range nonnegative position is a
one-hot vector: position `j` holds `1` and every other position holds `0`. -/
theorem oneHotRow_spec (d j : Nat) (hj : j < d) (m : Nat) (hm : m < d) :
    ((List.replicate d (0 : Nat)).set j 1)[m]? = some (if m = j then 1 else 0) := by
  rw [List.getElem?_set]
  by_cases hjm : j = m
  · subst hjm
    simp [hj]
  · have hmj : ¬ (m = j) := fun h => hjm h.symm
    simp [hjm, hmj, List.getElem?_replicate, hm]

/-- Success of `one_hot_encode` when every index lies in the numpy-accepted
extended range `[-dict_size, dict_size)`. -/
theorem one_hot_encode_isSome (sequence : List (List Int))
    (dict_size seq_len batch_size : Nat)
    (h : ∀ i < batch_size, ∀ u < seq_len, ∃ k : Int,
      (sequence[i]?).bind (fun row => row[u]?) = some k ∧
      -(dict_size : Int) ≤ k ∧ k < (dict_size : Int)) :
    (one_hot_encode sequence dict_size seq_len batch_size).isSome := by
  rw [one_hot_encode, mapM_option_isSome]
  intro i hi
  rw [mapM_option_isSome]
  intro u hu
  obtain ⟨k, hk, hlo, hhi⟩ := h i (List.mem_range.mp hi) u (List.mem_range.mp hu)
  rcases Option.bind_eq_some.mp hk with ⟨row, hrow, hku⟩
  rw [hrow]
  simp only [Option.some_bind] at *
  rw [hku]
  simp only [Option.some_bind]
  have := npSetIndex_isSome (List.replicate dict_size 0) k
    (by simpa using hlo) (by simpa using hhi)
  exact this

/-- Failure of `one_hot_encode` as soon as one visited index lies outside the
numpy-accepted extended range `[-dict_size, dict_size)`. -/
theorem one_hot_encode_eq_none (sequence : List (List Int))
    (dict_size seq_len batch_size : Nat) (i u : Nat) (k : Int)
    (hi : i < batch_size) (hu : u < seq_len)
    (hk : (sequence[i]?).bind (fun row => row[u]?) = some k)
    (hbad : k < -(dict_size : Int) ∨ (dict_size : Int) ≤ k) :
    one_hot_encode sequence dict_size seq_len batch_size = none := by
  rw [one_hot_encode]
  apply mapM_option_eq_none _ _ i (List.mem_range.mpr hi)
  apply mapM_option_eq_none _ _ u (List.mem_range.mpr hu)
  rcases Option.bind_eq_some.mp hk with ⟨row, hrow, hku⟩
  rw [hrow]
  simp only [Option.some_bind]
  rw [hku]
  simp only [Option.some_bind]
  exact npSetIndex_eq_none _ _ (by simpa using hbad)

/-- C1: the character-to-index and index-to-character maps built by the codec
are mutual inverses over the dense index range `[0, |vocabulary|)`: every
character of the corpus round-trips through `char2int` and back, and every
index below the vocabulary size round-trips through `int2char` and back. -/
theorem C1_codec_roundtrip (text : List (List Char)) :
    (∀ c : Char, c ∈ text.flatten →
      (char2int text c).bind (int2char text) = some c) ∧
    (∀ i : Nat, i < (chars text).length →
      (int2char text i).bind (char2int text) = some i) := by
  constructor
  · intro c hc
    have hmem : c ∈ chars text := List.mem_dedup.mpr hc
    have hsome := lookupIdx_isSome_of_mem c (chars text) hmem
    rcases Option.isSome_iff_exists.mp hsome with ⟨i, hi⟩
    have hget : (chars text)[i]? = some c := lookupIdx_eq_some c (chars text) i hi
    simp [char2int, int2char, hi, hget]
  · intro i hi
    have hc : (chars text)[i]? = some ((chars text)[i]) :=
      List.getElem?_eq_getElem hi
    have hnd : (chars text).Nodup := List.nodup_dedup _
    have := lookupIdx_of_getElem? ((chars text)[i]) (chars text) i hnd hc
    simp [int2char, char2int, hc, this]

theorem C1_codec_roundtrip_witness :
    (('h' : Char) ∈ ([['h','e','y']] : List (List Char)).flatten) ∧
    (char2int [['h','e','y']] 'h').bind (int2char [['h','e','y']]) = some 'h' := by
  refine ⟨by decide, ?_⟩
  exact (C1_codec_roundtrip [['h','e','y']]).1 'h' (by decide)


/-- C2: for every index-sequence input that supplies, at each of the
`batch_size × seq_len` visited positions, an index in `[0, vocab_size)`, the
output of `one_hot_encode` exists and has shape
`(batch_size, seq_len, vocab_size)`, and every `(batch, time)` slice is
one-hot: exactly one entry equals `1` (at some position `j`) and every other
entry equals `0`. -/
theorem C2_one_hot_shape_and_invariant (sequence : List (List Int))
    (dict_size seq_len batch_size : Nat)
    (h : ∀ i < batch_size, ∀ u < seq_len, ∃ k : Int,
      (sequence[i]?).bind (fun row => row[u]?) = some k ∧
      0 ≤ k ∧ k < (dict_size : Int)) :
    ∃ F, one_hot_encode sequence dict_size seq_len batch_size = some F ∧
      F.length = batch_size ∧
      ∀ mat ∈ F, mat.length = seq_len ∧
        ∀ row ∈ mat, row.length = dict_size ∧
          ∃ j < dict_size, ∀ m < dict_size,
            row[m]? = some (if m = j then 1 else 0) := by
  have hsome := one_hot_encode_isSome sequence dict_size seq_len batch_size
    (fun i hi u hu => by
      obtain ⟨k, hk, h0, h1⟩ := h i hi u hu
      exact ⟨k, hk, by omega, h1⟩)
  rcases Option.isSome_iff_exists.mp hsome with ⟨F, hF⟩
  rw [one_hot_encode] at hF
  refine ⟨F, by rw [one_hot_encode]; exact hF, ?_, ?_⟩
  · have := mapM_option_length _ _ _ hF
    simpa using this
  · intro mat hmat
    obtain ⟨i, hi, hgi⟩ := mapM_option_mem _ _ _ hF mat hmat
    have hilt : i < batch_size := List.mem_range.mp hi
    constructor
    · have := mapM_option_length _ _ _ hgi
      simpa using this
    · intro row hrow
      obtain ⟨u, hu, hgu⟩ := mapM_option_mem _ _ _ hgi row hrow
      have hult : u < seq_len := List.mem_range.mp hu
      obtain ⟨k, hk, h0, h1⟩ := h i hilt u hult
      rcases Option.bind_eq_some.mp hk with ⟨r, hr, hku⟩
      rw [hr, Option.some_bind, hku, Option.some_bind] at hgu
      have hset : npSetIndex (List.replicate dict_size 0) k =
          some ((List.replicate dict_size 0).set k.toNat 1) :=
        npSetIndex_of_nonneg _ _ h0 (by simpa using h1)
      rw [hset] at hgu
      have hrow_eq : row = (List.replicate dict_size (0 : Nat)).set k.toNat 1 :=
        (Option.some_inj.mp hgu).symm
      have hjlt : k.toNat < dict_size := by omega
      subst hrow_eq
      refine ⟨by simp, k.toNat, hjlt, fun m hm => oneHotRow_spec dict_size k.toNat hjlt m hm⟩

theorem C2_one_hot_shape_and_invariant_witness :
    ∃ F, one_hot_encode [[0], [1]] 2 1 2 = some F ∧
      F.length = 2 ∧
      ∀ mat ∈ F, mat.length = 1 ∧
        ∀ row ∈ mat, row.length = 2 ∧
          ∃ j < 2, ∀ m < 2, row[m]? = some (if m = j then 1 else 0) := by
  apply C2_one_hot_shape_and_invariant
  intro i hi u hu
  interval_cases i <;> interval_cases u <;>
    first
      | exact ⟨0, by decide, by decide, by decide⟩
      | exact ⟨1, by decide, by decide, by decide⟩

/-- C3 counterexample: the claim asserts `one_hot_encode` fails for every
negative index, but numpy wraps an index in `[-dict_size, 0)` around the last
axis: with `dict_size = 3`, index `-1` succeeds and sets the last slot. -/
theorem C3_counterexample :
    one_hot_encode [[(-1 : Int)]] 3 1 1 = some [[[0, 0, 1]]] := by decide

/-- C3 amended: `one_hot_encode` succeeds whenever every visited index lies in
the numpy-accepted extended range `[-vocab_size, vocab_size)` (a negative
index wraps around), and fails with an index error exactly when some visited
index satisfies `index < -vocab_size` or `index ≥ vocab_size`. -/
theorem C3_index_error_range (sequence : List (List Int))
    (dict_size seq_len batch_size : Nat) :
    ((∀ i < batch_size, ∀ u < seq_len, ∃ k : Int,
        (sequence[i]?).bind (fun row => row[u]?) = some k ∧
        -(dict_size : Int) ≤ k ∧ k < (dict_size : Int)) →
      (one_hot_encode sequence dict_size seq_len batch_size).isSome) ∧
    (∀ i < batch_size, ∀ u < seq_len, ∀ k : Int,
      (sequence[i]?).bind (fun row => row[u]?) = some k →
      (k < -(dict_size : Int) ∨ (dict_size : Int) ≤ k) →
      one_hot_encode sequence dict_size seq_len batch_size = none) :=
  ⟨one_hot_encode_isSome sequence dict_size seq_len batch_size,
   fun i hi u hu k hk hbad =>
     one_hot_encode_eq_none sequence dict_size seq_len batch_size i u k hi hu hk hbad⟩

theorem C3_index_error_range_witness :
    one_hot_encode [[(5 : Int)]] 3 1 1 = none :=
  (C3_index_error_range [[(5 : Int)]] 3 1 1).2 0 (by decide) 0 (by decide) 5
    (by decide) (by decide)

/-- The padding while-loop for one sentence:
`while len(text[i]) < maxlen: text[i] += " "`. -/
def padString (s : List Char) (maxlen : Nat) : List Char :=
  if _h : s.length < maxlen then padString (s ++ [' ']) maxlen else s
termination_by maxlen - s.length
decreasing_by simp; omega

/-- The padding loop
`for i in range(len(text)): while len(text[i]) < maxlen: text[i] += " "`. -/
def padText (text : List (List Char)) (maxlen : Nat) : List (List Char) :=
  text.map (fun s => padString s maxlen)

/-- `maxlen = len(max(text, key=len))`: the length of a longest sentence of
the corpus (`0` on an empty corpus, where Python `max` would raise; no claim
evaluates it there). -/
def maxlen (text : List (List Char)) : Nat :=
  (text.map List.length).foldr max 0

theorem padString_closed_aux (m n : Nat) :
    ∀ s : List Char, m - s.length = n →
      padString s m = s ++ List.replicate (m - s.length) ' ' := by
  induction n with
  | zero =>
    intro s h
    rw [padString, dif_neg (by omega), h]
    simp
  | succ k ih =>
    intro s h
    rw [padString, dif_pos (by omega)]
    have h2 : m - (s ++ [' ']).length = k := by simp; omega
    rw [ih (s ++ [' ']) h2, h2, List.append_assoc]
    congr 1
    have h3 : m - s.length = k + 1 := h
    rw [h3]
    simp [List.replicate_succ]

theorem padString_closed_form (s : List Char) (m : Nat) :
    padString s m = s ++ List.replicate (m - s.length) ' ' :=
  padString_closed_aux m (m - s.length) s rfl

theorem padString_length (s : List Char) (m : Nat) :
    (padString s m).length = max s.length m := by
  rw [padString_closed_form]
  simp
  omega

theorem padString_of_ge (s : List Char) (m : Nat) (h : m ≤ s.length) :
    padString s m = s := by
  rw [padString_closed_form]
  have h0 : m - s.length = 0 := by omega
  simp [h0]

/-- C4 counterexample: the claim asserts `pad` fails on a string strictly
longer than the target length and never returns a result there, but the
padding loop simply skips such a string and returns it unchanged: padding
`"abc"` to target length `2` returns `["abc"]`. -/
theorem C4_counterexample :
    padText [['a', 'b', 'c']] 2 = [['a', 'b', 'c']] := by
  simp [padText]
  exact padString_of_ge _ _ (by decide)

/-- C4 amended: the padding loop never fails; a string whose length already
reaches the target is returned unchanged, in place (no truncation and no
error), while shorter strings are extended with spaces to exactly the target
length. -/
theorem C4_pad_long_strings_unchanged (text : List (List Char)) (m i : Nat)
    (s : List Char) (hs : text[i]? = some s) (h : m ≤ s.length) :
    (padText text m)[i]? = some s := by
  rw [padText, List.getElem?_map, hs]
  simp [padString_of_ge s m h]

theorem C4_pad_long_strings_unchanged_witness :
    (padText [['a', 'b', 'c']] 2)[0]? = some ['a', 'b', 'c'] :=
  C4_pad_long_strings_unchanged [['a', 'b', 'c']] 2 0 ['a', 'b', 'c']
    (by decide) (by decide)

/-- C5 counterexample: the claim asserts the vocabulary build fails on an
empty corpus, but `set("".join([]))` is just the empty set: the build
returns an empty vocabulary and both lookup maps are empty, with no error. -/
theorem C5_counterexample :
    chars [] = [] ∧ char2int [] ' ' = none ∧ int2char [] 0 = none := by
  refine ⟨rfl, rfl, rfl⟩

/-- C5 amended: on an empty corpus (no strings, or only empty strings) the
vocabulary build does not fail: it returns an empty vocabulary, and every
`char2int` / `int2char` lookup on it returns nothing. -/
theorem C5_empty_corpus_empty_vocab (text : List (List Char))
    (h : text.flatten = []) :
    chars text = [] ∧ (∀ c : Char, char2int text c = none) ∧
      (∀ i : Nat, int2char text i = none) := by
  have hc : chars text = [] := by rw [chars, h]; rfl
  refine ⟨hc, fun c => ?_, fun i => ?_⟩
  · rw [char2int, hc]; rfl
  · rw [int2char, hc]; rfl

theorem C5_empty_corpus_empty_vocab_witness :
    chars [[], []] = [] :=
  (C5_empty_corpus_empty_vocab [[], []] (by decide)).1

/-- `input_seq.append(text[i][:-1])` over the whole corpus: each sentence
without its last character. -/
def input_seq (text : List (List Char)) : List (List Char) :=
  text.map (fun s => s.dropLast)

/-- `target_seq.append(text[i][1:])` over the whole corpus: each sentence
without its first character. -/
def target_seq (text : List (List Char)) : List (List Char) :=
  text.map (fun s => s.drop 1)

theorem shift_getElem? (s : List Char) (j : Nat)
    (h : j + 1 < s.dropLast.length) :
    (s.drop 1)[j]? = s.dropLast[j + 1]? := by
  rw [List.getElem?_dropLast, if_pos (by simpa using h)]
  cases s with
  | nil => simp at h
  | cons a t => simp

/-- C6: for every padded training sentence, the derived record satisfies
`target[j] = input[j+1]` at every position where both sides are defined
(input drops the last character, target drops the first), and every input
and target record of the batch has the same length `maxlen - 1`. -/
theorem C6_shifted_targets (text : List (List Char)) (m : Nat)
    (hm : ∀ s ∈ text, s.length ≤ m) (i : Nat) (s : List Char)
    (hs : (padText text m)[i]? = some s) :
    (∀ j, j + 1 < s.dropLast.length → (s.drop 1)[j]? = s.dropLast[j + 1]?) ∧
    s.dropLast.length = m - 1 ∧ (s.drop 1).length = m - 1 ∧
    (input_seq (padText text m))[i]? = some s.dropLast ∧
    (target_seq (padText text m))[i]? = some (s.drop 1) := by
  have hsl : s.length = m := by
    rw [padText, List.getElem?_map] at hs
    cases ht : text[i]? with
    | none => rw [ht] at hs; simp at hs
    | some t =>
      rw [ht] at hs
      simp at hs
      have htm : t.length ≤ m := hm t (List.getElem?_mem ht)
      rw [← hs, padString_length]
      omega
  refine ⟨fun j hj => shift_getElem? s j hj, ?_, ?_, ?_, ?_⟩
  · simp [hsl]
  · simp [hsl]
  · rw [input_seq, List.getElem?_map, hs]; rfl
  · rw [target_seq, List.getElem?_map, hs]; rfl

theorem C6_shifted_targets_witness :
    ((['h', 'e', 'y'] : List Char).drop 1)[0]? =
      (['h', 'e', 'y'] : List Char).dropLast[1]? ∧
    (['h', 'e', 'y'] : List Char).dropLast.length = 2 ∧
    ((['h', 'e', 'y'] : List Char).drop 1).length = 2 := by
  have h := C6_shifted_targets [['h', 'e', 'y']] 3 (by decide) 0 ['h', 'e', 'y']
    (by simp [padText, padString_of_ge])
  exact ⟨h.1 0 (by decide), h.2.1, h.2.2.1⟩

/-- The notebook corpus
`text = ["hey how are you", "good i am fine", "have a nice day"]`. -/
def text : List (List Char) :=
  [("hey how are you").toList, ("good i am fine").toList,
   ("have a nice day").toList]

/-- `dict_size = len(char2int)`: vocabulary size of the corpus. -/
def dict_size : Nat := (chars text).length

/-- `seq_len = maxlen - 1`. -/
def seq_len : Nat := maxlen text - 1

/-- `batch_size = len(text)`. -/
def batch_size : Nat := text.length

/-- The corpus after the in-place padding loop has run. -/
def paddedText : List (List Char) := padText text (maxlen text)

/-- The integer conversion
`input_seq[i] = [char2int[character] for character in input_seq[i]]` of the
input sequences derived from the padded corpus; a character missing from the
vocabulary raises, modelled by `none`. -/
def encodedInput : Option (List (List Int)) :=
  (input_seq paddedText).mapM
    (fun s => s.mapM (fun c => (char2int text c).map Int.ofNat))

/-- Shape check for a three-axis tensor rendered as nested lists. -/
def hasShape (F : List (List (List Nat))) (b s d : Nat) : Bool :=
  F.length == b &&
    F.all fun mat => mat.length == s && mat.all fun row => row.length == d

/-- C7: on the fixed corpus the derived quantities are `maxlen = 15`,
`seq_len = 14`, `batch_size = 3`, `dict_size = 17`, and the one-hot feature
tensor built from the encoded input sequences exists and has shape exactly
`(3, 14, 17)`. -/
theorem C7_concrete_scenario :
    maxlen text = 15 ∧ seq_len = 14 ∧ batch_size = 3 ∧ dict_size = 17 ∧
    (encodedInput.bind fun enc =>
        one_hot_encode enc dict_size seq_len batch_size).map
      (fun F => hasShape F 3 14 17) = some true := by
  have hpad : paddedText =
      [("hey how are you").toList, ("good i am fine ").toList,
       ("have a nice day").toList] := by
    simp only [paddedText, padText, text, List.map]
    rw [padString_closed_form, padString_closed_form, padString_closed_form]
    decide
  refine ⟨by decide, by decide, by decide, by decide, ?_⟩
  simp only [encodedInput]
  rw [hpad]
  decide

/-- `predict(model, character)`: encodes the characters with `char2int`
(`np.array([[char2int[c] for c in character]])`, raising on a character
absent from the vocabulary), one-hot encodes them as a batch of one of
length `character.shape[1] = len(character)`, runs the network, softmaxes
the final row and takes the argmax, and decodes the winning index through
`int2char`.  The floating-point forward pass plus softmax-argmax is
abstracted as `net`, whose result is a class index in `[0, dict_size)` (the
width of the final linear layer); on an empty input the flattened network
output has zero rows, so `out[-1]` raises, modelled by `none`. -/
def predict (net : List (List (List Nat)) → Fin dict_size)
    (character : List Char) : Option Char :=
  (character.mapM (fun c => char2int text c)).bind fun idxs =>
    (one_hot_encode [idxs.map Int.ofNat] dict_size idxs.length 1).bind
      fun feats =>
        if character.isEmpty then none
        else int2char text (net feats)

/-- The sampling loop
`for ii in range(size): char, h = predict(model, chars); chars.append(char)`. -/
def sampleLoop (net : List (List (List Nat)) → Fin dict_size) :
    Nat → List Char → Option (List Char)
  | 0, cs => some cs
  | n + 1, cs => (predict net cs).bind fun c => sampleLoop net n (cs ++ [c])

/-- `sample(model, out_len, start)`: lowercases the seed
(`start = start.lower()`, ASCII as exercised by this corpus), then appends
`size = out_len - len(chars)` predicted characters (`range` of a
non-positive number is empty, matching truncated subtraction). -/
def sample (net : List (List (List Nat)) → Fin dict_size)
    (out_len : Nat) (start : List Char) : Option (List Char) :=
  sampleLoop net (out_len - (start.map Char.toLower).length)
    (start.map Char.toLower)

/-- A constant stand-in network selecting class 0, used to instantiate the
abstract `net` argument at concrete inputs. -/
def netConst : List (List (List Nat)) → Fin dict_size :=
  fun _ => ⟨0, by decide⟩

theorem toLower_toLower (c : Char) : c.toLower.toLower = c.toLower := by
  simp only [Char.toLower]
  by_cases h : c.toNat ≥ 65 ∧ c.toNat ≤ 90
  · rw [if_pos h]
    have hval : (c.toNat + 32).isValidChar := Or.inl (by omega)
    have htn : (Char.ofNat (c.toNat + 32)).toNat = c.toNat + 32 := by
      rw [Char.ofNat, dif_pos hval]
      rfl
    rw [if_neg (by rw [htn]; omega)]
  · rw [if_neg h, if_neg h]

theorem vocab_toLower_fixed : ∀ c ∈ chars text, c.toLower = c := by decide

theorem lookupIdx_eq_none_of_not_mem (c : Char) (l : List Char)
    (h : c ∉ l) : lookupIdx c l = none := by
  cases hl : lookupIdx c l with
  | none => rfl
  | some i => exact absurd (List.getElem?_mem (lookupIdx_eq_some c l i hl)) h

theorem predict_isSome (net : List (List (List Nat)) → Fin dict_size)
    (character : List Char) (hne : character ≠ [])
    (hmem : ∀ c ∈ character, c ∈ chars text) :
    ∃ c, predict net character = some c ∧ c ∈ chars text := by
  have henc : ((character.mapM (fun c => char2int text c))).isSome := by
    rw [mapM_option_isSome]
    intro c hc
    exact lookupIdx_isSome_of_mem c (chars text) (hmem c hc)
  rcases Option.isSome_iff_exists.mp henc with ⟨idxs, hidxs⟩
  have hbound : ∀ x ∈ idxs, x < dict_size := by
    intro x hx
    obtain ⟨c, _, hcx⟩ := mapM_option_mem _ _ _ hidxs x hx
    exact lookupIdx_lt_length c (chars text) x hcx
  have hoh : (one_hot_encode [idxs.map Int.ofNat] dict_size idxs.length 1).isSome := by
    apply one_hot_encode_isSome
    intro i hi u hu
    have hi0 : i = 0 := by omega
    subst hi0
    refine ⟨Int.ofNat idxs[u], ?_, ?_, ?_⟩
    · simp [List.getElem?_eq_getElem hu]
    · rw [Int.ofNat_eq_natCast]
      omega
    · rw [Int.ofNat_eq_natCast]
      have := hbound idxs[u] (List.getElem_mem hu)
      omega
  rcases Option.isSome_iff_exists.mp hoh with ⟨feats, hfeats⟩
  have hnotempty : character.isEmpty = false := by
    cases character with
    | nil => exact absurd rfl hne
    | cons a t => rfl
  have hidx2 : int2char text (net feats) =
      some ((chars text)[(net feats : Nat)]) := by
    rw [int2char]
    exact List.getElem?_eq_getElem (net feats).isLt
  refine ⟨(chars text)[(net feats : Nat)], ?_, List.getElem_mem _⟩
  rw [predict, hidxs, Option.some_bind, hfeats, Option.some_bind, hnotempty]
  simpa using hidx2

theorem predict_eq_none_of_unknown (net : List (List (List Nat)) → Fin dict_size)
    (character : List Char) (c : Char) (hc : c ∈ character)
    (habs : c ∉ chars text) : predict net character = none := by
  have hmapM : (character.mapM (fun c => char2int text c)) = none :=
    mapM_option_eq_none _ _ c hc (lookupIdx_eq_none_of_not_mem c _ habs)
  rw [predict, hmapM]
  rfl

theorem sampleLoop_spec (net : List (List (List Nat)) → Fin dict_size)
    (n : Nat) : ∀ cs : List Char, cs ≠ [] → (∀ c ∈ cs, c ∈ chars text) →
    ∃ s, sampleLoop net n cs = some s ∧ s.length = cs.length + n ∧
      ∃ ext, s = cs ++ ext := by
  induction n with
  | zero =>
    intro cs hne hmem
    exact ⟨cs, rfl, by simp, [], by simp⟩
  | succ m ih =>
    intro cs hne hmem
    obtain ⟨c, hc, hcmem⟩ := predict_isSome net cs hne hmem
    have hmem2 : ∀ x ∈ cs ++ [c], x ∈ chars text := by
      intro x hx
      rcases List.mem_append.mp hx with h1 | h1
      · exact hmem x h1
      · rw [List.mem_singleton.mp h1]; exact hcmem
    obtain ⟨s, hs, hlen, ext, hext⟩ := ih (cs ++ [c]) (by simp) hmem2
    refine ⟨s, ?_, ?_, c :: ext, ?_⟩
    · rw [sampleLoop, hc, Option.some_bind, hs]
    · rw [hlen]; simp; omega
    · rw [hext]; simp

theorem sampleLoop_extends (net : List (List (List Nat)) → Fin dict_size)
    (n : Nat) : ∀ cs s : List Char, sampleLoop net n cs = some s →
    ∃ ext, s = cs ++ ext := by
  induction n with
  | zero =>
    intro cs s h
    rw [sampleLoop] at h
    exact ⟨[], by simp [← Option.some_inj.mp h]⟩
  | succ m ih =>
    intro cs s h
    rw [sampleLoop] at h
    rcases Option.bind_eq_some.mp h with ⟨c, hc, hrec⟩
    obtain ⟨ext, hext⟩ := ih (cs ++ [c]) s hrec
    exact ⟨c :: ext, by rw [hext]; simp⟩

theorem map_toLower_of_vocab (start : List Char)
    (hmem : ∀ c ∈ start, c ∈ chars text) :
    start.map Char.toLower = start := by
  have h1 : start.map Char.toLower = start.map id :=
    List.map_congr_left (fun c hc => vocab_toLower_fixed c (hmem c hc))
  rw [h1, List.map_id]

/-- C8 counterexample: the claim, instantiated with the empty seed (all of
whose zero characters are vacuously in the vocabulary, with
`0 = len(start) ≤ 3`), promises a returned text of length 3, but the first
prediction runs the network on a zero-length sequence and `out[-1]` raises
on the empty output, so `sample` fails instead. -/
theorem C8_counterexample : sample netConst 3 [] = none := by decide

/-- C8 amended: for every call `sample(start_text, length)` whose seed is
nonempty and whose seed characters are all in the vocabulary, the sampling
loop terminates after appending exactly `length - len(start_text)`
characters to the seed, so the returned text has length exactly `length`
whenever `len(start_text) ≤ length`. -/
theorem C8_sample_length (net : List (List (List Nat)) → Fin dict_size)
    (out_len : Nat) (start : List Char) (hne : start ≠ [])
    (hmem : ∀ c ∈ start, c ∈ chars text) (hlen : start.length ≤ out_len) :
    ∃ s, sample net out_len start = some s ∧
      s.length = start.length + (out_len - start.length) ∧
      s.length = out_len := by
  have hfix : start.map Char.toLower = start := map_toLower_of_vocab start hmem
  rw [sample, hfix]
  obtain ⟨s, hs, hslen, _⟩ :=
    sampleLoop_spec net (out_len - start.length) start hne hmem
  exact ⟨s, hs, hslen, by omega⟩

theorem C8_sample_length_witness :
    ∃ s, sample netConst 5 ['h', 'e', 'y'] = some s ∧
      s.length = 3 + (5 - 3) ∧ s.length = 5 :=
  C8_sample_length netConst 5 ['h', 'e', 'y'] (by decide) (by decide)
    (by decide)

/-- C9: feeding `predict` a character list containing a character absent
from the vocabulary fails with a lookup error (it never substitutes a
default index), and hence `sample` fails as well whenever its lowercased
seed contains such a character and at least one prediction step runs. -/
theorem C9_unknown_char_fails (net : List (List (List Nat)) → Fin dict_size) :
    (∀ character : List Char,
      (∃ c ∈ character, c ∉ chars text) → predict net character = none) ∧
    (∀ (out_len : Nat) (start : List Char),
      (∃ c ∈ start.map Char.toLower, c ∉ chars text) →
      start.length < out_len → sample net out_len start = none) := by
  constructor
  · intro character h
    obtain ⟨c, hc, habs⟩ := h
    exact predict_eq_none_of_unknown net character c hc habs
  · intro out_len start h hlt
    obtain ⟨c, hc, habs⟩ := h
    rw [sample]
    have hlenmap : (start.map Char.toLower).length = start.length :=
      List.length_map start Char.toLower
    have hpos : out_len - (start.map Char.toLower).length =
        (out_len - (start.map Char.toLower).length - 1) + 1 := by
      rw [hlenmap]; omega
    rw [hpos, sampleLoop,
      predict_eq_none_of_unknown net (start.map Char.toLower) c hc habs]
    rfl

theorem C9_unknown_char_fails_witness :
    predict netConst ['Q'] = none ∧ sample netConst 5 ['#'] = none :=
  ⟨(C9_unknown_char_fails netConst).1 ['Q'] ⟨'Q', by decide, by decide⟩,
   (C9_unknown_char_fails netConst).2 5 ['#'] ⟨'#', by decide, by decide⟩
     (by decide)⟩

/-- C10: `sample` lowercases its seed before encoding: it behaves
identically on `start` and on the lowercased `start`; every successful
output begins with the lowercased seed; and a seed whose characters all
lowercase into the vocabulary never raises a lookup error, even when the
seed itself contains a character (for example an uppercase letter) absent
from the vocabulary. -/
theorem C10_sample_lowercases_seed
    (net : List (List (List Nat)) → Fin dict_size) (out_len : Nat)
    (start : List Char) :
    sample net out_len start = sample net out_len (start.map Char.toLower) ∧
    (∀ s, sample net out_len start = some s →
      ∃ ext, s = start.map Char.toLower ++ ext) ∧
    ((∀ c ∈ start, c.toLower ∈ chars text) → (∃ c ∈ start, c ∉ chars text) →
      (sample net out_len start).isSome) := by
  have hidem : (start.map Char.toLower).map Char.toLower =
      start.map Char.toLower := by
    rw [List.map_map]
    exact List.map_congr_left (fun c _ => toLower_toLower c)
  refine ⟨?_, ?_, ?_⟩
  · rw [sample, sample, hidem]
  · intro s hs
    rw [sample] at hs
    exact sampleLoop_extends net _ _ s hs
  · intro h1 h2
    obtain ⟨c, hc, _⟩ := h2
    have hne : start ≠ [] := List.ne_nil_of_mem hc
    have hne2 : start.map Char.toLower ≠ [] := by
      cases start with
      | nil => exact absurd rfl hne
      | cons a t => simp
    have hmem2 : ∀ x ∈ start.map Char.toLower, x ∈ chars text := by
      intro x hx
      obtain ⟨d, hd, rfl⟩ := List.mem_map.mp hx
      exact h1 d hd
    rw [sample]
    obtain ⟨s, hs, _, _⟩ := sampleLoop_spec net
      (out_len - (start.map Char.toLower).length) (start.map Char.toLower)
      hne2 hmem2
    rw [hs]
    rfl

theorem C10_sample_lowercases_seed_witness :
    (sample netConst 5 ['H', 'e', 'y']).isSome :=
  (C10_sample_lowercases_seed netConst 5 ['H', 'e', 'y']).2.2 (by decide)
    ⟨'H', by decide, by decide⟩

end RnnWalkthrough
